import Mathlib

/-!
# Verification of the DeepForge mission-orchestration core

A shallow embedding, in Lean 4, of the parts of the DeepForge code base that
the specification's checkable claims are about:

* `src/cognition/planning/task_graph.py` — the task DAG, its readiness
  algorithm (`get_ready_tasks`), completion marking and the
  `get_execution_order` topological loop;
* `src/execution/orchestrator/mission_controller.py` — the testing-step
  handler `_execute_testing` and the success/failure bookkeeping of
  `execute_next_step`;
* `src/sandbox/runners/native_runner.py` — `NativeRunner.execute`;
* `src/core/events/event_bus.py` — `EventBus._process_event_sync`;
* `src/control/approval_engine.py` — `ApprovalEngine.request_approval`
  and `is_approved`;
* `src/sandbox/policy/risk_scoring.py` — `RiskScorer.assess`;
* `src/sandbox/policy/denylist.py` — `Denylist.check_code` (with a small
  interpreter for the fixed regular expressions it compiles);
* `src/control/risk_classifier.py` — `RiskClassifier.classify`.

Python dictionaries preserve insertion order, so an ordered association
list (or a plain list of nodes with unique keys) models `Dict`.  Python
strings are modelled by Lean `String` / `List Char`.  The decimal risk
weights (0.4, 0.15, 0.2, 0.1 and the thresholds 0.3/0.6/0.8) are scaled by
100 into exact naturals; every comparison in the source is between sums of
these constants, which the scaling preserves exactly.
-/

namespace DeepForge

/-! ## Task graph (`src/cognition/planning/task_graph.py`) -/

/-- `TaskStatus` from `task_graph.py`. -/
inductive TaskStatus
  | pending
  | ready
  | running
  | completed
  | failed
  | skipped
deriving DecidableEq, Repr

/-- `TaskNode` from `task_graph.py`.  The float field
`estimated_time_seconds` and the free-form `metadata` dict play no role in
any claim and are omitted. -/
structure TaskNode where
  task_id : String
  description : String
  task_type : String
  dependencies : List String
  status : TaskStatus
deriving DecidableEq, Repr

/-- `TaskGraph._tasks` is a Python dict `id -> TaskNode`; dicts iterate in
insertion order, so the graph is the insertion-ordered list of its nodes
(keys are the nodes' `task_id`s, unique by dict construction). -/
abbrev TaskGraph := List TaskNode

/-- Dict lookup `self._tasks.get(task_id)` (`TaskGraph.get_task`): the node
whose id matches. -/
def lookupTask (g : TaskGraph) (id : String) : Option TaskNode :=
  g.find? (fun t => t.task_id == id)

/-- `add_task`: `self._tasks[task.task_id] = task` — replace in place if the
key exists, else append. -/
def addTask (g : TaskGraph) (t : TaskNode) : TaskGraph :=
  if g.any (fun u => u.task_id == t.task_id) then
    g.map (fun u => if u.task_id == t.task_id then t else u)
  else
    g ++ [t]

/-- One conjunct of the readiness check in `get_ready_tasks`: the generator
`all(self._tasks[dep_id].status == COMPLETED for dep_id in task.dependencies
if dep_id in self._tasks)` skips dependency ids that are absent from the
dict, so an absent id contributes `true`. -/
def depSatisfiedReady (g : TaskGraph) (dep : String) : Bool :=
  match lookupTask g dep with
  | none => true
  | some d => d.status == TaskStatus.completed

/-- The full readiness condition evaluated against graph `g`. -/
def allDepsCompleted (g : TaskGraph) (t : TaskNode) : Bool :=
  t.dependencies.all (depSatisfiedReady g)

/-- `task.status = TaskStatus.READY` (the in-place mutation). -/
def readyize (t : TaskNode) : TaskNode := { t with status := TaskStatus.ready }

/-- The loop of `get_ready_tasks`: iterate over the nodes in insertion
order; `px` is the already-visited prefix (with any mutations applied,
since the Python loop mutates nodes of the same dict it is reading), the
second argument is the unvisited suffix.  Returns the final graph and the
`ready` result list. -/
def getReadyTasksAux : TaskGraph → TaskGraph → TaskGraph × List TaskNode
  | px, [] => (px, [])
  | px, t :: rest =>
    if t.status == TaskStatus.pending && allDepsCompleted (px ++ t :: rest) t then
      let out := getReadyTasksAux (px ++ [readyize t]) rest
      (out.1, readyize t :: out.2)
    else
      getReadyTasksAux (px ++ [t]) rest

/-- `TaskGraph.get_ready_tasks` — returns the mutated graph together with
the returned list. -/
def getReadyTasks (g : TaskGraph) : TaskGraph × List TaskNode :=
  getReadyTasksAux [] g

/-- Set a node's status. -/
def setStatus (s : TaskStatus) (t : TaskNode) : TaskNode := { t with status := s }

/-- `mark_completed`: if the id is present, set that node's status to
`COMPLETED` (the guarded dict-entry mutation; ids are unique, so a map over
the list whose branch fires at most at the matching node is the same
update, and when the id is absent nothing changes). -/
def markCompleted (g : TaskGraph) (id : String) : TaskGraph :=
  g.map (fun t => if t.task_id == id then setStatus TaskStatus.completed t else t)

/-- `mark_failed`, analogous. -/
def markFailed (g : TaskGraph) (id : String) : TaskGraph :=
  g.map (fun t => if t.task_id == id then setStatus TaskStatus.failed t else t)

/-- `is_complete`. -/
def isComplete (g : TaskGraph) : Bool :=
  g.all (fun t => t.status == TaskStatus.completed || t.status == TaskStatus.skipped)

/-- One full pass of the inner `for task in self._tasks.values()` loop of
`get_execution_order`, threading the `order` accumulator.  The source also
keeps a `completed` set, but it is extended in lockstep with `order` and
only queried for membership, so its contents always equal the ids in
`order`; the embedding therefore carries `order` alone. -/
def orderStep (ord : List String) (t : TaskNode) : List String :=
  if ord.contains t.task_id then ord
  else if t.dependencies.all (fun d => ord.contains d) then ord ++ [t.task_id]
  else ord

def orderPass (g : TaskGraph) (init : List String) : List String :=
  g.foldl orderStep init

/-- The `while len(order) < len(self._tasks)` loop of `get_execution_order`,
with an explicit pass counter.  `none` means the fuel ran out with the
loop condition still true. -/
def getExecutionOrderFuel (g : TaskGraph) : Nat → List String → Option (List String)
  | 0, ord => if g.length ≤ ord.length then some ord else none
  | n + 1, ord =>
    if g.length ≤ ord.length then some ord
    else getExecutionOrderFuel g n (orderPass g ord)

/-- `TaskGraph.get_execution_order`.  A pass either strictly extends
`order` or leaves it unchanged, and an unchanged incomplete `order` stays
unchanged forever (`getExecutionOrderFuel_stagnant` below), so
`g.length` passes decide the loop: `some ord` exactly when the Python
`while` loop terminates and returns `ord`, and `none` exactly when it
loops forever. -/
def getExecutionOrder (g : TaskGraph) : Option (List String) :=
  getExecutionOrderFuel g g.length []

/-- Every dependency id refers to a task present in the graph. -/
def depsClosed (g : TaskGraph) : Bool :=
  g.all (fun t => t.dependencies.all (fun d => (lookupTask g d).isSome))

/-- The readiness predicate of `get_ready_tasks`, evaluated statically
against graph `g` (the loop body's `task.status == PENDING and all(...)`). -/
def readySelect (g : TaskGraph) (t : TaskNode) : Bool :=
  t.status == TaskStatus.pending && allDepsCompleted g t

/-- Two nodes agree on everything the readiness check reads: id,
dependency list, and whether the status is `completed`.  The in-place
`pending -> ready` mutations of `get_ready_tasks` relate the evolving
graph to the original one by this relation. -/
def NodeCompat (a b : TaskNode) : Prop :=
  a.task_id = b.task_id ∧ a.dependencies = b.dependencies ∧
    ((a.status = TaskStatus.completed) ↔ (b.status = TaskStatus.completed))

/-- No node carrying this id is still pending. -/
def idNotPending (g : TaskGraph) (tid : String) : Prop :=
  ∀ u ∈ g, u.task_id = tid → u.status ≠ TaskStatus.pending

/-- `ord` places every listed task after all of its dependencies. -/
def OrderedOk (g : TaskGraph) (ord : List String) : Prop :=
  ∀ t ∈ g, t.task_id ∈ ord → ∀ d ∈ t.dependencies,
    d ∈ ord ∧ ord.indexOf d < ord.indexOf t.task_id

/-- Invariant of the `get_execution_order` loop: the accumulated order is
duplicate-free, draws its ids from the graph, and respects dependencies. -/
def PassInv (g : TaskGraph) (ord : List String) : Prop :=
  ord.Nodup ∧ (∀ x ∈ ord, ∃ t ∈ g, t.task_id = x) ∧ OrderedOk g ord

/-- The graph has no dependency cycle: some rank strictly decreases along
every in-graph dependency edge (the standard characterization of a finite
DAG — such a rank exists iff no directed cycle of dependencies exists). -/
def NoDepCycle (g : TaskGraph) : Prop :=
  ∃ rank : String → Nat, ∀ t ∈ g, ∀ d ∈ t.dependencies,
    (lookupTask g d).isSome = true → rank d < rank t.task_id

/-! ## Mission controller (`src/execution/orchestrator/mission_controller.py`) -/

/-- `MissionStatus` from `state/mission_state.py`. -/
inductive MissionStatus
  | created
  | planning
  | executing
  | paused
  | completed
  | failed
  | cancelled
deriving DecidableEq, Repr

/-- `StepStatus` from `state/step_state.py`. -/
inductive StepStatus
  | pending
  | running
  | completed
  | failed
  | approval_required
  | skipped
deriving DecidableEq, Repr

/-- The fields of `MissionState` that `execute_next_step` touches
(timestamps and identifiers carry no claim content and are omitted). -/
structure MissionState where
  status : MissionStatus
  completed_steps : Nat
  error : Option String
deriving DecidableEq, Repr

/-- The fields of `StepState` that `execute_next_step` touches; the
`outputs` dict `{"result": result}` is modelled by the result string it
wraps. -/
structure StepState where
  step_id : String
  status : StepStatus
  error : Option String
  outputs : Option String
deriving DecidableEq, Repr

/-- `TestResult` from `src/execution/testing/test_execution.py` (the fields
`_execute_testing` reads). -/
structure TestResult where
  test_name : String
  passed : Bool
  error : Option String
deriving DecidableEq, Repr

/-- Outcome of the `try` block's external calls in `_execute_testing`:
`RefactorEngine.refactor_on_error` either returns a result dict — whose
`"explanation"` entry is `some`/`none` — or the block raises (the
`except Exception: pass` path, which also covers an exception from the
re-run of the tests). -/
inductive RefactorOutcome
  | ok (explanation : Option String)
  | raises
deriving DecidableEq, Repr

/-- `"\n".join(r.error for r in failed_tests if r.error)` — Python
truthiness keeps only errors that are non-`None` and non-empty. -/
def joinErrors (failed : List TestResult) : String :=
  String.intercalate "\n"
    ((failed.filter (fun r =>
        match r.error with
        | some s => !(s == "")
        | none => false)).map (fun r => r.error.getD ""))

/-- `MissionController._execute_testing`.  Inputs: the first
`run_tests()` result list, the outcome of the refactor attempt, and the
re-run result list.  Returns the `(success, message)` pair of the
handler. -/
def executeTesting (results : List TestResult) (refactor : RefactorOutcome)
    (rerun : List TestResult) : Bool × String :=
  if !results.isEmpty && results.all (fun r => r.passed) then
    (true, "All tests passed")
  else if !results.isEmpty && !(results.all (fun r => r.passed)) then
    let failed := results.filter (fun r => !r.passed)
    if !failed.isEmpty then
      let _error_msg := joinErrors failed
      -- `self.refactor_engine.refactor_on_error(error_msg, "main.py",
      -- max_retries=2)` followed by one re-run of the tests, inside
      -- `try ... except Exception: pass`.
      match refactor with
      | RefactorOutcome.raises =>
          (true, "Tests skipped (no test files found)")
      | RefactorOutcome.ok explanation =>
          if !rerun.isEmpty && rerun.all (fun r => r.passed) then
            (true, "Tests passed after auto-refactor: " ++ explanation.getD "Fixed")
          else
            (true, "Tests skipped (no test files found)")
    else
      (true, "Tests skipped (no test files found)")
  else
    (true, "Tests skipped (no test files found)")

/-- The outcome record of one `execute_next_step` bookkeeping branch. -/
structure StepApplied where
  step : StepState
  mission : MissionState
  plan : TaskGraph
deriving DecidableEq, Repr

/-- The success/failure bookkeeping of `execute_next_step` after the
handler returned `(success, result)`: on success the step is marked
completed with its outputs, the task marked completed, and the mission's
completed-step counter incremented; on failure the step is marked failed
with the error, the task marked failed, and the mission marked failed
with the same error. -/
def applyStepResult (m : MissionState) (g : TaskGraph) (st : StepState)
    (success : Bool) (result : String) : StepApplied :=
  if success then
    { step := { st with status := StepStatus.completed, outputs := some result },
      mission := { m with completed_steps := m.completed_steps + 1 },
      plan := markCompleted g st.step_id }
  else
    { step := { st with status := StepStatus.failed, error := some result },
      mission := { m with status := MissionStatus.failed, error := some result },
      plan := markFailed g st.step_id }

/-! ## Native runner (`src/sandbox/runners/native_runner.py`) -/

/-- `ExecutionResult` from `native_runner.py`; the float `duration_ms` is a
rational. -/
structure ExecutionResult where
  exit_code : Int
  stdout : String
  stderr : String
  duration_ms : ℚ
deriving DecidableEq, Repr

/-- How the `subprocess.run` call inside `NativeRunner.execute` ends:
normal completion (with return code, captured output and elapsed time),
`subprocess.TimeoutExpired`, or `FileNotFoundError` (missing binary). -/
inductive RunOutcome
  | completed (returncode : Int) (stdoutS stderrS : String) (elapsed_ms : ℚ)
  | timedOut
  | fileNotFound
deriving DecidableEq, Repr

/-- `NativeRunner.execute`: each `except` arm is converted into an
`ExecutionResult`, so the function is total — no exception escapes on
these outcomes. -/
def NativeRunner.execute (command : String) (timeout : ℚ) :
    RunOutcome → ExecutionResult
  | RunOutcome.completed rc out err elapsed =>
      { exit_code := rc, stdout := out, stderr := err, duration_ms := elapsed }
  | RunOutcome.timedOut =>
      { exit_code := -1, stdout := "", stderr := "Execution timed out",
        duration_ms := timeout * 1000 }
  | RunOutcome.fileNotFound =>
      { exit_code := -1, stdout := "",
        stderr := "Command not found: " ++ command, duration_ms := 0 }

/-! ## Event bus (`src/core/events/event_bus.py`) -/

/-- The fields of `EventEnvelope` that delivery reads (payload/source are
kept as opaque strings; timestamps and correlation ids are immaterial). -/
structure EventEnvelope where
  event_type : String
  payload : String
  source : String
deriving DecidableEq, Repr

/-- What a subscribed handler does when invoked on the event: return
normally or raise.  (The claims concern plain synchronous handlers; the
coroutine dispatch branch wraps the same try/except.) -/
inductive HandlerBehavior
  | ok
  | raises
deriving DecidableEq, Repr

/-- The delivery loop of `EventBus._process_event_sync`: handlers are the
type-specific subscribers followed by the wildcard subscribers; each is
invoked inside `try`, and a raising handler appends the event to the
dead-letter list without stopping the loop.  Returns the list of handlers
actually invoked (in invocation order) and the final dead-letter list. -/
def processEventSync (specific wildcard : List HandlerBehavior)
    (dead : List EventEnvelope) (e : EventEnvelope) :
    List HandlerBehavior × List EventEnvelope :=
  (specific ++ wildcard).foldl (fun acc h =>
    match h with
    | HandlerBehavior.ok => (acc.1 ++ [h], acc.2)
    | HandlerBehavior.raises => (acc.1 ++ [h], acc.2 ++ [e])) ([], dead)

/-! ## Approval engine (`src/control/approval_engine.py`) -/

/-- `ApprovalStatus`. -/
inductive ApprovalStatus
  | pending
  | approved
  | denied
  | expired
  | auto_approved
deriving DecidableEq, Repr

/-- `ApprovalRequest`; `datetime` timestamps are abstract `Nat` instants. -/
structure ApprovalRequest where
  request_id : String
  operation : String
  description : String
  risk_level : String
  status : ApprovalStatus
  created_at : Nat
  resolved_at : Option Nat
  resolved_by : Option String
  reason : Option String
deriving DecidableEq, Repr

/-- The engine's mutable state: the `auto_approve_low_risk` flag, the
pending dict (insertion-ordered id/request pairs) and the history list. -/
structure ApprovalEngine where
  auto_approve_low_risk : Bool
  pending_requests : List (String × ApprovalRequest)
  history : List ApprovalRequest
deriving DecidableEq, Repr

/-- `ApprovalEngine.request_approval`; `request_id` stands for the fresh
`uuid.uuid4()` string and `now` for `datetime.now()`. -/
def requestApproval (eng : ApprovalEngine) (request_id operation description
    risk_level : String) (now : Nat) : ApprovalRequest × ApprovalEngine :=
  let request : ApprovalRequest :=
    { request_id := request_id, operation := operation,
      description := description, risk_level := risk_level,
      status := ApprovalStatus.pending, created_at := now,
      resolved_at := none, resolved_by := none, reason := none }
  if eng.auto_approve_low_risk && risk_level == "low" then
    let request := { request with
      status := ApprovalStatus.auto_approved,
      resolved_at := some now,
      reason := some "Auto-approved low-risk operation" }
    (request, { eng with history := eng.history ++ [request] })
  else
    (request, { eng with
      pending_requests := eng.pending_requests ++ [(request_id, request)] })

/-- `ApprovalEngine.is_approved`: scan the history and return on the first
entry with the id. -/
def isApproved (eng : ApprovalEngine) (request_id : String) : Bool :=
  match eng.history.find? (fun r => r.request_id == request_id) with
  | some req =>
      req.status == ApprovalStatus.approved
        || req.status == ApprovalStatus.auto_approved
  | none => false

/-! ## String containment (Python's `needle in haystack` on `str`) -/

/-- `needle` is a prefix of `hay` (character lists). -/
def isStartOf : List Char → List Char → Bool
  | [], _ => true
  | _ :: _, [] => false
  | a :: as, b :: bs => a == b && isStartOf as bs

/-- Python's substring test `needle in hay` on character lists: `needle`
is a prefix of some suffix of `hay`. -/
def listContains (needle : List Char) : List Char → Bool
  | [] => isStartOf needle []
  | c :: rest => isStartOf needle (c :: rest) || listContains needle rest

/-- `str.lower()`; the inputs of interest are ASCII, where Python's
`lower` agrees with character-wise `Char.toLower`. -/
def lowerChars (s : List Char) : List Char := s.map Char.toLower

/-! ## Risk scorer (`src/sandbox/policy/risk_scoring.py`) -/

/-- `RiskLevel`. -/
inductive RiskLevel
  | low
  | medium
  | high
  | critical
deriving DecidableEq, Repr

/-- `RiskAssessment`; the score is the source's float scaled by 100 into
an exact natural (weights 0.4/0.15/0.2/0.1 become 40/15/20/10, thresholds
0.3/0.6/0.8 become 30/60/80; all source arithmetic is sums and
comparisons of these constants, preserved exactly by the scaling). -/
structure RiskAssessment where
  level : RiskLevel
  score : Nat
  factors : List String
  requires_approval : Bool
deriving DecidableEq, Repr

/-- The `capabilities` entry of the context dict. -/
structure RiskContext where
  capabilities : List String
deriving DecidableEq, Repr

/-- `RiskScorer.HIGH_RISK_PATTERNS`. -/
def HIGH_RISK_PATTERNS : List String :=
  ["subprocess", "os.system", "eval", "exec",
   "open(", "write(", "remove", "rmdir", "unlink",
   "shutil", "pathlib", "socket", "requests",
   "urllib", "http", "ftp", "ssh"]

/-- `RiskScorer.CRITICAL_PATTERNS`. -/
def CRITICAL_PATTERNS : List String :=
  ["rm -rf", "format", "del /", "deltree",
   "__import__", "importlib", "ctypes",
   "sys.exit", "os._exit"]

/-- One pattern loop of `assess`: for each pattern with
`pattern.lower() in code_lower`, add `weight` to the score and append the
factor message. -/
def patternLoop (weight : Nat) (label : String) (patterns : List String)
    (code_lower : List Char) (acc : Nat × List String) : Nat × List String :=
  patterns.foldl (fun acc p =>
    if listContains (lowerChars p.data) code_lower then
      (acc.1 + weight, acc.2 ++ [label ++ p])
    else acc) acc

/-- `RiskScorer.assess` (with the default `approval_threshold = 0.6`,
scaled to 60). -/
def assess (code : List Char) (ctx : RiskContext) : RiskAssessment :=
  let code_lower := lowerChars code
  let acc1 := patternLoop 40 "Critical pattern: " CRITICAL_PATTERNS code_lower (0, [])
  let acc2 := patternLoop 15 "High-risk pattern: " HIGH_RISK_PATTERNS code_lower acc1
  let acc3 := if ctx.capabilities.contains "network" then
      (acc2.1 + 20, acc2.2 ++ ["Network access requested"]) else acc2
  let acc4 := if ctx.capabilities.contains "filesystem" then
      (acc3.1 + 10, acc3.2 ++ ["Filesystem access requested"]) else acc3
  let score := min acc4.1 100
  let level :=
    if 80 ≤ score then RiskLevel.critical
    else if 60 ≤ score then RiskLevel.high
    else if 30 ≤ score then RiskLevel.medium
    else RiskLevel.low
  { level := level, score := score, factors := acc4.2,
    requires_approval := 60 ≤ score }

/-! ## Denylist (`src/sandbox/policy/denylist.py`)

The ten `DANGEROUS_PATTERNS` regexes use only literals, `\s+`, `\s*`,
the classes `[fs]`/`[a-z]` and escaped parentheses, all compiled with
`re.IGNORECASE`; a tiny matcher over exactly these constructs embeds
`re.compile(p, re.IGNORECASE).search(code)`. -/

/-- A regex token of the denylist patterns. -/
inductive RTok
  | lit (c : Char)
  | wsPlus
  | wsStar
  | cls (cs : List Char)
  | rangeCls (lo hi : Char)
deriving DecidableEq, Repr

/-- `\s` on ASCII inputs (Python also lets `\s` match some rarer Unicode
whitespace, none of which the denylist inputs contain). -/
def isSpaceRE (c : Char) : Bool :=
  c == ' ' || c == '\t' || c == '\n' || c == '\r' || c == '\x0b' || c == '\x0c'

/-- Match the token list against a prefix of `s` (case-insensitively, via
`Char.toLower`; literal/class characters in the patterns are already
lower-case).  The fuel argument only bounds the recursion: every call
consumes a token or a character, so any fuel above `tokens + chars` never
runs out — `matchToks` below always supplies enough. -/
def matchToksF : Nat → List RTok → List Char → Bool
  | 0, _, _ => false
  | _ + 1, [], _ => true
  | f + 1, RTok.lit c :: ts, s =>
    match s with
    | [] => false
    | d :: s' => d.toLower == c && matchToksF f ts s'
  | f + 1, RTok.wsPlus :: ts, s =>
    match s with
    | [] => false
    | d :: s' => isSpaceRE d && matchToksF f (RTok.wsStar :: ts) s'
  | f + 1, RTok.wsStar :: ts, s =>
    matchToksF f ts s ||
      (match s with
       | [] => false
       | d :: s' => isSpaceRE d && matchToksF f (RTok.wsStar :: ts) s')
  | f + 1, RTok.cls cs :: ts, s =>
    match s with
    | [] => false
    | d :: s' => cs.contains d.toLower && matchToksF f ts s'
  | f + 1, RTok.rangeCls lo hi :: ts, s =>
    match s with
    | [] => false
    | d :: s' => (decide (lo ≤ d.toLower) && decide (d.toLower ≤ hi)) && matchToksF f ts s'

/-- Match the token list against a prefix of `s`. -/
def matchToks (ts : List RTok) (s : List Char) : Bool :=
  matchToksF (ts.length + s.length + 1) ts s

/-- `re.search`: try to match starting at every position. -/
def reSearch (ts : List RTok) : List Char → Bool
  | [] => matchToks ts []
  | c :: s' => matchToks ts (c :: s') || reSearch ts s'

/-- Literal characters of a pattern. -/
def lits (s : String) : List RTok := s.data.map RTok.lit

/-- `Denylist.DANGEROUS_PATTERNS`, each as its source text (for the
violation message) with its token form. -/
def DANGEROUS_PATTERNS : List (String × List RTok) :=
  [("rm\\s+-rf", lits "rm" ++ [RTok.wsPlus] ++ lits "-rf"),
   ("del\\s+/[fs]", lits "del" ++ [RTok.wsPlus] ++ lits "/" ++ [RTok.cls ['f', 's']]),
   ("format\\s+[a-z]:", lits "format" ++ [RTok.wsPlus] ++ [RTok.rangeCls 'a' 'z'] ++ lits ":"),
   ("__import__\\s*\\(", lits "__import__" ++ [RTok.wsStar] ++ lits "("),
   ("exec\\s*\\(", lits "exec" ++ [RTok.wsStar] ++ lits "("),
   ("eval\\s*\\(", lits "eval" ++ [RTok.wsStar] ++ lits "("),
   ("compile\\s*\\(", lits "compile" ++ [RTok.wsStar] ++ lits "("),
   ("globals\\s*\\(", lits "globals" ++ [RTok.wsStar] ++ lits "("),
   ("locals\\s*\\(", lits "locals" ++ [RTok.wsStar] ++ lits "("),
   ("getattr\\s*\\(\\s*__builtins__",
    lits "getattr" ++ [RTok.wsStar] ++ lits "(" ++ [RTok.wsStar] ++ lits "__builtins__")]

/-- `Denylist.DANGEROUS_MODULES` (consulted by `is_module_denied`, not by
`check_code`). -/
def DANGEROUS_MODULES : List String :=
  ["os", "subprocess", "shutil", "sys", "ctypes", "socket", "pickle", "marshal"]

/-- `Denylist.is_module_denied` on the freshly initialized denylist. -/
def isModuleDenied (module : String) : Bool :=
  DANGEROUS_MODULES.contains module

/-- `Denylist.check_code` on the freshly initialized denylist: collect a
violation message for every matching pattern; the first component is
`len(violations) == 0`. -/
def check_code (code : String) : Bool × List String :=
  let violations := DANGEROUS_PATTERNS.foldl (fun vs pp =>
    if reSearch pp.2 code.data then vs ++ ["Denied pattern: " ++ pp.1] else vs) []
  (violations.isEmpty, violations)

/-- The end-to-end scenario input `os.system('rm -rf /')` (the quote
character written via its code point; `sq` below is the single-quote
character). -/
def cexDenyCode : String :=
  "os.system(" ++ String.singleton (Char.ofNat 39) ++ "rm -rf /"
    ++ String.singleton (Char.ofNat 39) ++ ")"

/-! ## Risk classifier (`src/control/risk_classifier.py`) -/

/-- `RiskCategory`. -/
inductive RiskCategory
  | filesystem
  | network
  | system
  | code_execution
  | data_access
deriving DecidableEq, Repr

/-- The `.value` string of each category. -/
def RiskCategory.value : RiskCategory → String
  | RiskCategory.filesystem => "filesystem"
  | RiskCategory.network => "network"
  | RiskCategory.system => "system"
  | RiskCategory.code_execution => "code_execution"
  | RiskCategory.data_access => "data_access"

/-- `RiskClassifier.CATEGORY_KEYWORDS` in dict insertion order. -/
def CATEGORY_KEYWORDS : List (RiskCategory × List String) :=
  [(RiskCategory.filesystem,
    ["file", "write", "read", "delete", "remove",
     "mkdir", "rmdir", "path", "directory"]),
   (RiskCategory.network,
    ["http", "https", "socket", "request", "url",
     "download", "upload", "api", "fetch"]),
   (RiskCategory.system,
    ["subprocess", "os.", "sys.", "shell", "command",
     "execute", "run", "process"]),
   (RiskCategory.code_execution,
    ["eval", "exec", "compile", "import", "__"]),
   (RiskCategory.data_access,
    ["database", "sql", "query", "select", "insert",
     "password", "credential", "secret", "key"])]

/-- `Classification`; `confidence` is the source's float as an exact
rational. -/
structure Classification where
  level : String
  categories : List RiskCategory
  confidence : ℚ
  explanation : String
deriving DecidableEq, Repr

/-- The category loop of `classify`: a category is appended (once — the
inner loop `break`s at the first hit) when any of its keywords occurs in
the lowered operation text. -/
def matchedCategories (operation_lower : List Char) : List RiskCategory :=
  CATEGORY_KEYWORDS.foldl (fun cs ck =>
    if ck.2.any (fun k => listContains k.data operation_lower) then cs ++ [ck.1]
    else cs) []

/-- A single-quote character (written via its code point to keep string
literals plain). -/
def sq : String := String.singleton (Char.ofNat 39)

/-- Python's `repr` of a list of strings, as produced by the f-string
`f"Detected categories: {[c.value for c in categories]}"`. -/
def pyStrListRepr (xs : List String) : String :=
  "[" ++ String.intercalate ", " (xs.map (fun x => sq ++ x ++ sq)) ++ "]"

/-- `RiskClassifier.classify` (the `context` parameter is unused by the
source body and omitted). -/
def classify (operation : List Char) : Classification :=
  let operation_lower := lowerChars operation
  let categories := matchedCategories operation_lower
  if categories.isEmpty then
    { level := "low", categories := [], confidence := 8/10,
      explanation := "No high-risk patterns detected" }
  else
    let level :=
      if categories.any (fun c => c == RiskCategory.system
          || c == RiskCategory.code_execution) then "high"
      else if 2 < categories.length then "medium"
      else "low"
    { level := level, categories := categories,
      confidence := 7/10 + (1/10) * categories.length,
      explanation := "Detected categories: "
        ++ pyStrListRepr (categories.map RiskCategory.value) }

/-! ## Theorems -/

/-- The testing handler returns `success = true` on every input. -/
lemma executeTesting_fst (results : List TestResult) (refactor : RefactorOutcome)
    (rerun : List TestResult) :
    (executeTesting results refactor rerun).1 = true := by
  unfold executeTesting
  repeat first | rfl | split | simp only []

/--
**C1.** The spec asserts that a testing-type step whose tests fail routes
the error through the Refiner once, and — if the retry does not make the
tests pass — reports failure so the step is finally marked failed and the
mission records the error.  The code's `_execute_testing` instead falls
through to `return True, "Tests skipped (no test files found)"` on the
failed-retry path (and on the refactor-raised path), so the handler
reports success on *every* input, the step is marked completed, and the
mission's status and error are untouched.  The bounded-retry part holds
(one refactor call, one re-run, no loop), but the final-failure part is
contradicted by the code.
-/
theorem C1_testing_step_never_reports_failure (results : List TestResult)
    (refactor : RefactorOutcome) (rerun : List TestResult)
    (m : MissionState) (g : TaskGraph) (st : StepState) :
    (executeTesting results refactor rerun).1 = true
    ∧ (applyStepResult m g st (executeTesting results refactor rerun).1
        (executeTesting results refactor rerun).2).step.status = StepStatus.completed
    ∧ (applyStepResult m g st (executeTesting results refactor rerun).1
        (executeTesting results refactor rerun).2).mission.status = m.status
    ∧ (applyStepResult m g st (executeTesting results refactor rerun).1
        (executeTesting results refactor rerun).2).mission.error = m.error := by
  have h := executeTesting_fst results refactor rerun
  refine ⟨h, ?_, ?_, ?_⟩ <;> simp [applyStepResult, h]

/-- A concrete run of the failing input: one failed test, a refactor that
returns normally, and a re-run that still fails — the handler reports
success with the no-test-files message. -/
lemma executeTesting_failed_retry_example :
    executeTesting [⟨"t", false, some "AssertionError"⟩]
      (RefactorOutcome.ok (some "patched"))
      [⟨"t", false, some "AssertionError"⟩]
    = (true, "Tests skipped (no test files found)") := by decide

/--
**C3.** `NativeRunner.execute` returns an `ExecutionResult` (total — never
raises) on ordinary failures: on timeout, exit code `-1` with the
non-empty stderr `"Execution timed out"`; on a missing binary, exit code
`-1` with a non-empty stderr message.
-/
theorem C3_native_runner_failure_results (command : String) (timeout : ℚ) :
    (NativeRunner.execute command timeout RunOutcome.timedOut).exit_code = -1
    ∧ (NativeRunner.execute command timeout RunOutcome.timedOut).stderr
        = "Execution timed out"
    ∧ (NativeRunner.execute command timeout RunOutcome.timedOut).stderr ≠ ""
    ∧ (NativeRunner.execute command timeout RunOutcome.fileNotFound).exit_code = -1
    ∧ (NativeRunner.execute command timeout RunOutcome.fileNotFound).stderr ≠ "" := by
  refine ⟨rfl, rfl, ?_, rfl, ?_⟩
  · show ("Execution timed out" : String) ≠ ""
    decide
  intro hcon
  have hlen := congrArg String.length hcon
  rw [show (NativeRunner.execute command timeout RunOutcome.fileNotFound).stderr
      = "Command not found: " ++ command from rfl, String.length_append] at hlen
  have h19 : ("Command not found: " : String).length = 19 := rfl
  have h0 : ("" : String).length = 0 := rfl
  rw [h19, h0] at hlen
  omega

/-- The delivery fold of `_process_event_sync`, in closed form: every
handler is invoked in order, and the event is appended to the dead-letter
list once per raising handler. -/
lemma deliverFold (e : EventEnvelope) :
    ∀ (hs : List HandlerBehavior) (acc : List HandlerBehavior × List EventEnvelope),
      hs.foldl (fun acc h =>
        match h with
        | HandlerBehavior.ok => (acc.1 ++ [h], acc.2)
        | HandlerBehavior.raises => (acc.1 ++ [h], acc.2 ++ [e])) acc
      = (acc.1 ++ hs, acc.2 ++ List.replicate (hs.count HandlerBehavior.raises) e) := by
  intro hs
  induction hs with
  | nil => intro acc; simp
  | cons h t ih =>
    intro acc
    cases h with
    | ok =>
      rw [List.foldl_cons, ih]
      simp [List.count_cons]
    | raises =>
      rw [List.foldl_cons, ih]
      simp [List.count_cons, List.replicate_succ]

/--
**C4.** When one event is delivered to several subscribed handlers and
exactly one handler raises, every handler (type-specific then wildcard) is
still invoked in order, delivery completes without an exception escaping
(the model is total), and the event is appended to the dead-letter list
exactly once.
-/
theorem C4_event_bus_failure_isolation (specific wildcard : List HandlerBehavior)
    (dead : List EventEnvelope) (e : EventEnvelope)
    (hone : (specific ++ wildcard).count HandlerBehavior.raises = 1) :
    (processEventSync specific wildcard dead e).1 = specific ++ wildcard
    ∧ (processEventSync specific wildcard dead e).2 = dead ++ [e] := by
  unfold processEventSync
  rw [deliverFold e (specific ++ wildcard) ([], dead)]
  rw [hone]
  simp

/-- Witness for C4: two type-specific handlers (the second raises) and one
wildcard handler; all three are invoked and the event dead-letters once. -/
theorem C4_witness :
    (processEventSync [HandlerBehavior.ok, HandlerBehavior.raises]
        [HandlerBehavior.ok] [] ⟨"STEP_FAILED", "p", "bus"⟩).1
      = [HandlerBehavior.ok, HandlerBehavior.raises, HandlerBehavior.ok]
    ∧ (processEventSync [HandlerBehavior.ok, HandlerBehavior.raises]
        [HandlerBehavior.ok] [] ⟨"STEP_FAILED", "p", "bus"⟩).2
      = [⟨"STEP_FAILED", "p", "bus"⟩] :=
  C4_event_bus_failure_isolation [HandlerBehavior.ok, HandlerBehavior.raises]
    [HandlerBehavior.ok] [] ⟨"STEP_FAILED", "p", "bus"⟩ (by decide)

/--
**C5.** `request_approval` with risk level `"low"` while auto-approval is
enabled returns a request with status `auto_approved`, appends it to the
history (so `is_approved` of its id is true immediately) and never places
it in the pending table; with any other risk level or auto-approval
disabled, the request is held pending and `is_approved` of its id is
false.  The id is the fresh `uuid4()` value, so it does not occur in the
prior history.
-/
theorem C5_auto_approval_low_risk (eng : ApprovalEngine)
    (rid op desc risk : String) (now : Nat)
    (hFresh : ∀ r ∈ eng.history, r.request_id ≠ rid) :
    (eng.auto_approve_low_risk = true ∧ risk = "low" →
      (requestApproval eng rid op desc risk now).1.status = ApprovalStatus.auto_approved
      ∧ (requestApproval eng rid op desc risk now).1
          ∈ (requestApproval eng rid op desc risk now).2.history
      ∧ isApproved (requestApproval eng rid op desc risk now).2 rid = true
      ∧ (requestApproval eng rid op desc risk now).2.pending_requests
          = eng.pending_requests)
    ∧ (¬(eng.auto_approve_low_risk = true ∧ risk = "low") →
      (requestApproval eng rid op desc risk now).1.status = ApprovalStatus.pending
      ∧ (rid, (requestApproval eng rid op desc risk now).1)
          ∈ (requestApproval eng rid op desc risk now).2.pending_requests
      ∧ isApproved (requestApproval eng rid op desc risk now).2 rid = false) := by
  have hNoneHist : eng.history.find? (fun r => r.request_id == rid) = none := by
    rw [List.find?_eq_none]
    intro r hr
    simpa using hFresh r hr
  constructor
  · rintro ⟨hAuto, hLow⟩
    have hcond : (eng.auto_approve_low_risk && risk == "low") = true := by
      simp [hAuto, hLow]
    refine ⟨?_, ?_, ?_, ?_⟩
    · simp [requestApproval, hcond]
    · simp [requestApproval, hcond]
    · simp [requestApproval, hcond, isApproved, hNoneHist]
    · simp [requestApproval, hcond]
  · intro hNot
    have hcond : (eng.auto_approve_low_risk && risk == "low") = false := by
      cases hb : eng.auto_approve_low_risk with
      | false => simp
      | true =>
        have hl : risk ≠ "low" := fun hl => hNot ⟨hb, hl⟩
        simp [hl]
    refine ⟨?_, ?_, ?_⟩
    · simp [requestApproval, hcond]
    · simp [requestApproval, hcond]
    · simp [requestApproval, hcond, isApproved, hNoneHist]

/-- `NodeCompat` is reflexive. -/
lemma nodeCompat_refl (t : TaskNode) : NodeCompat t t := ⟨rfl, rfl, Iff.rfl⟩

/-- Every list is `NodeCompat`-related to itself. -/
lemma forall2_refl : ∀ (l : List TaskNode), List.Forall₂ NodeCompat l l := by
  intro l
  induction l with
  | nil => exact List.Forall₂.nil
  | cons x xs ih => exact List.Forall₂.cons (nodeCompat_refl x) ih

/-- `Forall₂ NodeCompat` is preserved by append. -/
lemma forall2_append {l₁ l₂ l₃ l₄ : List TaskNode}
    (h : List.Forall₂ NodeCompat l₁ l₂) (h₂ : List.Forall₂ NodeCompat l₃ l₄) :
    List.Forall₂ NodeCompat (l₁ ++ l₃) (l₂ ++ l₄) := by
  induction h with
  | nil => exact h₂
  | cons hab _ ih => exact List.Forall₂.cons hab ih

/-- A mapped list is `NodeCompat`-related to the original when the map is
pointwise compatible. -/
lemma forall2_map_left (f : TaskNode → TaskNode) :
    ∀ (l : List TaskNode), (∀ x ∈ l, NodeCompat (f x) x) →
      List.Forall₂ NodeCompat (l.map f) l := by
  intro l
  induction l with
  | nil => intro _; exact List.Forall₂.nil
  | cons x xs ih =>
    intro h
    exact List.Forall₂.cons (h x (List.mem_cons_self x xs))
      (ih (fun y hy => h y (List.mem_cons_of_mem x hy)))

/-- The readiness check of one dependency reads only what `NodeCompat`
preserves, so compatible graphs agree on it. -/
lemma depSatisfiedReady_congr {g h : TaskGraph}
    (hf : List.Forall₂ NodeCompat g h) (d : String) :
    depSatisfiedReady g d = depSatisfiedReady h d := by
  induction hf with
  | nil => rfl
  | @cons a b l₁ l₂ hab hrest ih =>
    rcases hab with ⟨hid, -, hst⟩
    by_cases hbeq : (a.task_id == d) = true
    · have hbeq₂ : (b.task_id == d) = true := by rw [← hid]; exact hbeq
      have hla : lookupTask (a :: l₁) d = some a := by
        unfold lookupTask
        simp only [List.find?_cons, hbeq]
      have hlb : lookupTask (b :: l₂) d = some b := by
        unfold lookupTask
        simp only [List.find?_cons, hbeq₂]
      unfold depSatisfiedReady
      rw [hla, hlb]
      show (a.status == TaskStatus.completed) = (b.status == TaskStatus.completed)
      apply Bool.eq_iff_iff.mpr
      simpa using hst
    · have hbeq₂ : ¬(b.task_id == d) = true := by rw [← hid]; exact hbeq
      have hla : lookupTask (a :: l₁) d = lookupTask l₁ d := by
        unfold lookupTask
        simp only [List.find?_cons, Bool.eq_false_iff.mpr hbeq]
      have hlb : lookupTask (b :: l₂) d = lookupTask l₂ d := by
        unfold lookupTask
        simp only [List.find?_cons, Bool.eq_false_iff.mpr hbeq₂]
      unfold depSatisfiedReady at ih ⊢
      rw [hla, hlb]
      exact ih

/-- Compatible graphs agree on the whole readiness conjunction. -/
lemma allDepsCompleted_congr {g h : TaskGraph}
    (hf : List.Forall₂ NodeCompat g h) (t : TaskNode) :
    allDepsCompleted g t = allDepsCompleted h t := by
  unfold allDepsCompleted
  induction t.dependencies with
  | nil => rfl
  | cons d ds ih => simp only [List.all_cons, depSatisfiedReady_congr hf d, ih]

/-- The loop of `get_ready_tasks`, characterized statically: although the
loop reads the graph it is mutating, its `pending -> ready` mutations never
change any node's `completed`-ness, so the readiness decisions equal those
taken against the untouched graph `G`.  `px` is the mutated prefix, `qx`
the corresponding original prefix. -/
lemma getReadyTasksAux_spec (G : TaskGraph) :
    ∀ (sfx px qx : TaskGraph), G = qx ++ sfx →
      List.Forall₂ NodeCompat px qx →
      getReadyTasksAux px sfx
        = (px ++ sfx.map (fun t => if readySelect G t then readyize t else t),
           (sfx.filter (readySelect G)).map readyize) := by
  intro sfx
  induction sfx with
  | nil =>
    intro px qx hG hpx
    simp [getReadyTasksAux]
  | cons t rest ih =>
    intro px qx hG hpx
    have hfull : List.Forall₂ NodeCompat (px ++ t :: rest) (qx ++ t :: rest) :=
      forall2_append hpx (forall2_refl (t :: rest))
    have hcond : (t.status == TaskStatus.pending
        && allDepsCompleted (px ++ t :: rest) t) = readySelect G t := by
      unfold readySelect
      rw [allDepsCompleted_congr hfull t, hG]
    by_cases hsel : readySelect G t = true
    · have hpend : t.status = TaskStatus.pending := by
        have h1 := hsel
        unfold readySelect at h1
        rcases Bool.and_eq_true_iff.mp h1 with ⟨h2, -⟩
        simpa using h2
      have hcompat : NodeCompat (readyize t) t :=
        ⟨rfl, rfl, by rw [show (readyize t).status = TaskStatus.ready from rfl, hpend]; decide⟩
      have hIH := ih (px ++ [readyize t]) (qx ++ [t])
        (by rw [hG, List.append_assoc]; rfl)
        (forall2_append hpx (List.Forall₂.cons hcompat List.Forall₂.nil))
      simp only [getReadyTasksAux]
      rw [hcond, if_pos hsel, hIH]
      simp only [List.map_cons, List.filter_cons, hsel, if_true]
      simp [List.append_assoc]
    · have hsel₂ : readySelect G t = false := Bool.eq_false_iff.mpr hsel
      have hIH := ih (px ++ [t]) (qx ++ [t])
        (by rw [hG, List.append_assoc]; rfl)
        (forall2_append hpx (List.Forall₂.cons (nodeCompat_refl t) List.Forall₂.nil))
      simp only [getReadyTasksAux]
      rw [hcond, if_neg hsel, hIH]
      simp only [List.map_cons, List.filter_cons, hsel₂, Bool.false_eq_true, if_false]
      simp [List.append_assoc]

/-- `get_ready_tasks`, characterized statically: the returned list is the
in-order static filter of the pending satisfied tasks (readied), and the
mutated graph is the pointwise readying of exactly those tasks. -/
lemma getReadyTasks_spec (g : TaskGraph) :
    getReadyTasks g
      = (g.map (fun t => if readySelect g t then readyize t else t),
         (g.filter (readySelect g)).map readyize) := by
  unfold getReadyTasks
  simpa using getReadyTasksAux_spec g g [] [] rfl List.Forall₂.nil

/--
**C2.** `get_ready_tasks` returns, in insertion order, exactly the tasks
whose status is pending and whose every dependency id is absent from the
graph or refers to a completed task; each returned task is readied as a
side effect (in the result and in the graph); a pending task all of whose
dependency ids are non-existent is returned.
-/
theorem C2_get_ready_tasks (g : TaskGraph) :
    ((getReadyTasks g).2
        = (g.filter (fun t => t.status == TaskStatus.pending
            && t.dependencies.all (depSatisfiedReady g))).map readyize)
    ∧ (∀ d, depSatisfiedReady g d = true ↔
        (lookupTask g d = none
          ∨ ∃ u, lookupTask g d = some u ∧ u.status = TaskStatus.completed))
    ∧ (∀ t ∈ (getReadyTasks g).2, t.status = TaskStatus.ready)
    ∧ ((getReadyTasks g).1
        = g.map (fun t => if readySelect g t then readyize t else t))
    ∧ (∀ t ∈ g, t.status = TaskStatus.pending →
        (∀ d ∈ t.dependencies, lookupTask g d = none) →
        readyize t ∈ (getReadyTasks g).2) := by
  refine ⟨?_, ?_, ?_, ?_, ?_⟩
  · rw [getReadyTasks_spec]
    rfl
  · intro d
    unfold depSatisfiedReady
    cases hl : lookupTask g d with
    | none => simp
    | some u => simp [beq_iff_eq]
  · intro t ht
    rw [getReadyTasks_spec] at ht
    rcases List.mem_map.mp ht with ⟨t₀, -, rfl⟩
    rfl
  · rw [getReadyTasks_spec]
  · intro t ht hpend hdeps
    rw [getReadyTasks_spec]
    apply List.mem_map_of_mem
    apply List.mem_filter.mpr
    refine ⟨ht, ?_⟩
    unfold readySelect allDepsCompleted
    apply Bool.and_eq_true_iff.mpr
    constructor
    · simpa using hpend
    · apply List.all_eq_true.mpr
      intro d hd
      unfold depSatisfiedReady
      rw [hdeps d hd]

/-- Witness for C2: a lone pending task whose only dependency id does not
exist in the graph is returned (readied) by `get_ready_tasks`. -/
theorem C2_witness :
    readyize ⟨"x", "demo", "setup", ["ghost"], TaskStatus.pending⟩
      ∈ (getReadyTasks [⟨"x", "demo", "setup", ["ghost"], TaskStatus.pending⟩]).2 :=
  (C2_get_ready_tasks [⟨"x", "demo", "setup", ["ghost"], TaskStatus.pending⟩]).2.2.2.2
    ⟨"x", "demo", "setup", ["ghost"], TaskStatus.pending⟩
    (by decide) rfl (by decide)

/-- Mapping each element to itself maps the list to itself. -/
lemma map_self_of {α : Type} (f : α → α) :
    ∀ (l : List α), (∀ x ∈ l, f x = x) → l.map f = l := by
  intro l
  induction l with
  | nil => intro _; rfl
  | cons x xs ih =>
    intro h
    simp only [List.map_cons]
    rw [h x (List.mem_cons_self x xs),
      ih (fun y hy => h y (List.mem_cons_of_mem x hy))]

/-- After `get_ready_tasks`, the mutated graph is still `NodeCompat` with
the original: only `pending -> ready` changes happened. -/
lemma forall2_after (g : TaskGraph) :
    List.Forall₂ NodeCompat (getReadyTasks g).1 g := by
  rw [getReadyTasks_spec]
  apply forall2_map_left
  intro t _
  by_cases hsel : readySelect g t = true
  · rw [if_pos hsel]
    have hpend : t.status = TaskStatus.pending := by
      unfold readySelect at hsel
      rcases Bool.and_eq_true_iff.mp hsel with ⟨h2, -⟩
      simpa using h2
    exact ⟨rfl, rfl,
      by rw [show (readyize t).status = TaskStatus.ready from rfl, hpend]; decide⟩
  · rw [if_neg hsel]
    exact nodeCompat_refl t

/-- No node of the post-`get_ready_tasks` graph passes the readiness
check: returned tasks became `ready`, and the readiness of the others is
unchanged (the mutations never touch `completed`-ness). -/
lemma readySelect_after (g : TaskGraph) :
    ∀ u ∈ (getReadyTasks g).1, readySelect (getReadyTasks g).1 u = false := by
  intro u hu
  rw [getReadyTasks_spec] at hu
  rcases List.mem_map.mp hu with ⟨t, htg, rfl⟩
  by_cases hsel : readySelect g t = true
  · rw [if_pos hsel]
    unfold readySelect
    simp [readyize]
  · rw [if_neg hsel]
    unfold readySelect
    rw [allDepsCompleted_congr (forall2_after g) t]
    exact Bool.eq_false_iff.mpr hsel

/-- A second, immediately following call to `get_ready_tasks` changes
nothing and returns the empty list. -/
lemma getReadyTasks_idem (g : TaskGraph) :
    getReadyTasks (getReadyTasks g).1 = ((getReadyTasks g).1, []) := by
  have hall := readySelect_after g
  have h2 : List.filter (readySelect (getReadyTasks g).1) (getReadyTasks g).1 = [] :=
    List.filter_eq_nil_iff.mpr (fun a ha => by simp [hall a ha])
  rw [getReadyTasks_spec ((getReadyTasks g).1), h2]
  rw [map_self_of _ _ (fun x hx => by simp [hall x hx])]
  rfl

/-- `mark_completed` never turns a node pending. -/
lemma markCompleted_not_pending (g : TaskGraph) (i tid : String)
    (h : idNotPending g tid) : idNotPending (markCompleted g i) tid := by
  intro u hu hutid
  unfold markCompleted at hu
  rcases List.mem_map.mp hu with ⟨v, hv, rfl⟩
  by_cases hvi : (v.task_id == i) = true
  · rw [if_pos hvi] at hutid ⊢
    simp [setStatus]
  · rw [if_neg hvi] at hutid ⊢
    exact h v hv hutid

/-- Any sequence of `mark_completed` calls keeps a non-pending id
non-pending. -/
lemma foldl_markCompleted_not_pending (tid : String) :
    ∀ (ids : List String) (g : TaskGraph), idNotPending g tid →
      idNotPending (ids.foldl markCompleted g) tid := by
  intro ids
  induction ids with
  | nil => intro g h; exact h
  | cons i is ih =>
    intro g h
    exact ih (markCompleted g i) (markCompleted_not_pending g i tid h)

/-- The id of a task returned by `get_ready_tasks` is no longer pending
anywhere in the mutated graph (ids unique). -/
lemma ready_id_not_pending (g : TaskGraph)
    (hN : (g.map TaskNode.task_id).Nodup)
    (t : TaskNode) (ht : t ∈ (getReadyTasks g).2) :
    idNotPending (getReadyTasks g).1 t.task_id := by
  rw [getReadyTasks_spec] at ht
  rcases List.mem_map.mp ht with ⟨t₀, ht₀, rfl⟩
  have ht₀g := List.mem_of_mem_filter ht₀
  have hsel₀ : readySelect g t₀ = true := List.of_mem_filter ht₀
  intro u hu hid
  rw [getReadyTasks_spec] at hu
  rcases List.mem_map.mp hu with ⟨v, hvg, rfl⟩
  have hvid : v.task_id = t₀.task_id := by
    by_cases hv : readySelect g v = true
    · rw [if_pos hv] at hid; exact hid
    · rw [if_neg hv] at hid; exact hid
  have hveq : v = t₀ := List.inj_on_of_nodup_map hN hvg ht₀g hvid
  subst hveq
  rw [if_pos hsel₀]
  simp [readyize]

/--
**C10.** `get_ready_tasks` returns each task at most once across the
graph's lifetime: a returned task leaves `pending`, and only pending
tasks are considered, so an immediate second call returns the empty list
(and leaves the graph unchanged), and even after any sequence of
`mark_completed` calls no task of the first batch is ever returned again.
-/
theorem C10_ready_at_most_once (g : TaskGraph) (ids : List String)
    (hN : (g.map TaskNode.task_id).Nodup) :
    (getReadyTasks (getReadyTasks g).1 = ((getReadyTasks g).1, []))
    ∧ (∀ t ∈ (getReadyTasks g).2,
        ∀ u ∈ (getReadyTasks (ids.foldl markCompleted (getReadyTasks g).1)).2,
          u.task_id ≠ t.task_id) := by
  refine ⟨getReadyTasks_idem g, ?_⟩
  intro t ht u hu hid
  have hnp : idNotPending (ids.foldl markCompleted (getReadyTasks g).1) t.task_id :=
    foldl_markCompleted_not_pending _ ids _ (ready_id_not_pending g hN t ht)
  rw [getReadyTasks_spec] at hu
  rcases List.mem_map.mp hu with ⟨u₀, hu₀, rfl⟩
  have hu₀g := List.mem_of_mem_filter hu₀
  have hselu : readySelect (ids.foldl markCompleted (getReadyTasks g).1) u₀ = true :=
    List.of_mem_filter hu₀
  have hpend : u₀.status = TaskStatus.pending := by
    unfold readySelect at hselu
    rcases Bool.and_eq_true_iff.mp hselu with ⟨h2, -⟩
    simpa using h2
  exact hnp u₀ hu₀g hid hpend

/-- Witness for C10: on a one-task graph, the second consecutive call
returns no tasks and leaves the graph unchanged. -/
theorem C10_witness :
    getReadyTasks (getReadyTasks [⟨"a", "demo", "setup", [], TaskStatus.pending⟩]).1
      = ((getReadyTasks [⟨"a", "demo", "setup", [], TaskStatus.pending⟩]).1, []) :=
  (C10_ready_at_most_once [⟨"a", "demo", "setup", [], TaskStatus.pending⟩] []
    (by decide)).1

/-- `contains` on string lists is membership. -/
lemma contains_true_iff (l : List String) (a : String) :
    l.contains a = true ↔ a ∈ l := by
  simp [List.contains_eq_any_beq, List.any_eq_true, beq_iff_eq]

/-- One step of the `get_execution_order` pass only ever appends. -/
lemma orderStep_extends (acc : List String) (u : TaskNode) :
    acc <+: orderStep acc u := by
  unfold orderStep
  by_cases hc : acc.contains u.task_id = true
  · rw [if_pos hc]
  · rw [if_neg hc]
    by_cases hall : u.dependencies.all (fun d => acc.contains d) = true
    · rw [if_pos hall]; exact List.prefix_append acc [u.task_id]
    · rw [if_neg hall]

/-- A whole pass only ever appends. -/
lemma foldl_orderStep_extends :
    ∀ (l : List TaskNode) (acc : List String), acc <+: l.foldl orderStep acc := by
  intro l
  induction l with
  | nil => intro acc; exact List.prefix_refl acc
  | cons u rest ih =>
    intro acc
    exact (orderStep_extends acc u).trans (ih (orderStep acc u))

/-- `orderPass` only ever appends to the order. -/
lemma orderPass_extends (g : TaskGraph) (ord : List String) :
    ord <+: orderPass g ord :=
  foldl_orderStep_extends g ord

/-- A stagnated incomplete order never completes: the Python `while` loop
of `get_execution_order` spins forever from such a state. -/
lemma getExecutionOrderFuel_stagnant (g : TaskGraph) (ord : List String)
    (hstag : orderPass g ord = ord) (hlt : ord.length < g.length) :
    ∀ n, getExecutionOrderFuel g n ord = none := by
  intro n
  induction n with
  | zero =>
    unfold getExecutionOrderFuel
    rw [if_neg (by omega)]
  | succ n ih =>
    unfold getExecutionOrderFuel
    rw [if_neg (by omega), hstag]
    exact ih

/-- A task all of whose dependencies are already placed gets placed by
the pass that reaches it. -/
lemma foldl_orderStep_places :
    ∀ (l : List TaskNode) (acc : List String) (t : TaskNode), t ∈ l →
      (∀ d ∈ t.dependencies, d ∈ acc) → t.task_id ∈ l.foldl orderStep acc := by
  intro l
  induction l with
  | nil => intro acc t ht; cases ht
  | cons u rest ih =>
    intro acc t ht hdeps
    rcases List.mem_cons.mp ht with rfl | htr
    · have hstep : t.task_id ∈ orderStep acc t := by
        unfold orderStep
        by_cases hc : acc.contains t.task_id = true
        · rw [if_pos hc]; exact (contains_true_iff acc t.task_id).mp hc
        · rw [if_neg hc]
          rw [if_pos (List.all_eq_true.mpr
            (fun d hd => (contains_true_iff acc d).mpr (hdeps d hd)))]
          exact List.mem_append_right acc (List.mem_singleton.mpr rfl)
      exact (foldl_orderStep_extends rest (orderStep acc t)).subset hstep
    · exact ih (orderStep acc u) t htr
        (fun d hd => (orderStep_extends acc u).subset (hdeps d hd))

/-- Every nonempty list has an element minimizing a natural measure. -/
lemma exists_min_by {α : Type} (f : α → Nat) :
    ∀ (l : List α), l ≠ [] → ∃ a ∈ l, ∀ b ∈ l, f a ≤ f b := by
  intro l
  induction l with
  | nil => intro h; exact absurd rfl h
  | cons x xs ih =>
    intro _
    by_cases hxs : xs = []
    · subst hxs
      refine ⟨x, List.mem_cons_self x [], ?_⟩
      intro b hb
      rcases List.mem_cons.mp hb with rfl | hb₂
      · exact Nat.le_refl _
      · cases hb₂
    · rcases ih hxs with ⟨a, ha, hmin⟩
      by_cases hxa : f x ≤ f a
      · refine ⟨x, List.mem_cons_self x xs, ?_⟩
        intro b hb
        rcases List.mem_cons.mp hb with rfl | hb₂
        · exact Nat.le_refl _
        · exact Nat.le_trans hxa (hmin b hb₂)
      · refine ⟨a, List.mem_cons_of_mem x ha, ?_⟩
        intro b hb
        rcases List.mem_cons.mp hb with rfl | hb₂
        · omega
        · exact hmin b hb₂

/-- An incomplete duplicate-free order drawn from the graph's (unique)
ids misses some task. -/
lemma exists_unplaced (g : TaskGraph)
    (hN : (g.map TaskNode.task_id).Nodup) (ord : List String)
    (hsub : ∀ x ∈ ord, ∃ t ∈ g, t.task_id = x)
    (hlt : ord.length < g.length) :
    ∃ t ∈ g, t.task_id ∉ ord := by
  by_contra hcon
  push_neg at hcon
  have hsubset : ord ⊆ g.map TaskNode.task_id := by
    intro x hx
    rcases hsub x hx with ⟨t, htg, rfl⟩
    exact List.mem_map_of_mem _ htg
  have hsubset₂ : (g.map TaskNode.task_id) ⊆ ord := by
    intro x hx
    rcases List.mem_map.mp hx with ⟨t, htg, rfl⟩
    exact hcon t htg
  have hle := (hN.subperm hsubset₂).length_le
  rw [List.length_map] at hle
  omega

/-- While the order is incomplete, a pass strictly extends it (this is
where acyclicity and dependency-closedness enter: the rank-minimal
unplaced task has all its dependencies placed). -/
lemma orderPass_progress (g : TaskGraph) (rank : String → Nat)
    (hrank : ∀ t ∈ g, ∀ d ∈ t.dependencies,
      (lookupTask g d).isSome = true → rank d < rank t.task_id)
    (hC : depsClosed g = true)
    (hN : (g.map TaskNode.task_id).Nodup)
    (ord : List String)
    (hsub : ∀ x ∈ ord, ∃ t ∈ g, t.task_id = x)
    (_hnd : ord.Nodup) (hlt : ord.length < g.length) :
    ord.length < (orderPass g ord).length := by
  have hSne : g.filter (fun t => !(ord.contains t.task_id)) ≠ [] := by
    rcases exists_unplaced g hN ord hsub hlt with ⟨t₁, ht₁g, ht₁n⟩
    intro hnil
    have hmem : t₁ ∈ g.filter (fun t => !(ord.contains t.task_id)) := by
      apply List.mem_filter.mpr
      refine ⟨ht₁g, ?_⟩
      simp only [Bool.not_eq_true']
      exact Bool.eq_false_iff.mpr (fun hc => ht₁n ((contains_true_iff ord _).mp hc))
    rw [hnil] at hmem
    cases hmem
  rcases exists_min_by (fun t => rank t.task_id) _ hSne with ⟨t, htS, hmin⟩
  have htg := List.mem_of_mem_filter htS
  have htn : t.task_id ∉ ord := by
    have hb := List.of_mem_filter htS
    simp only [Bool.not_eq_true'] at hb
    exact fun hmem => by rw [(contains_true_iff ord _).mpr hmem] at hb; cases hb
  have hdeps : ∀ d ∈ t.dependencies, d ∈ ord := by
    intro d hd
    have hclosed : (lookupTask g d).isSome = true := by
      unfold depsClosed at hC
      have h₁ := List.all_eq_true.mp hC t htg
      have h₂ : t.dependencies.all (fun x => (lookupTask g x).isSome) = true := by
        simpa using h₁
      simpa using List.all_eq_true.mp h₂ d hd
    rcases Option.isSome_iff_exists.mp hclosed with ⟨u, hu⟩
    have hug : u ∈ g := List.mem_of_find?_eq_some hu
    have huid : u.task_id = d := by simpa using List.find?_some hu
    by_contra hdn
    have huS : u ∈ g.filter (fun y => !(ord.contains y.task_id)) := by
      apply List.mem_filter.mpr
      refine ⟨hug, ?_⟩
      simp only [Bool.not_eq_true']
      exact Bool.eq_false_iff.mpr (fun hc => hdn (huid ▸ (contains_true_iff ord _).mp hc))
    have h₁ := hmin u huS
    have h₂ : rank d < rank t.task_id := hrank t htg d hd (by rw [hu]; rfl)
    rw [huid] at h₁
    omega
  have hmem : t.task_id ∈ orderPass g ord := foldl_orderStep_places g ord t htg hdeps
  have hpre := orderPass_extends g ord
  rcases Nat.lt_or_ge ord.length (orderPass g ord).length with h | h
  · exact h
  · exfalso
    rw [hpre.eq_of_length_le h] at htn
    exact htn hmem

/-- Appending a fresh element keeps a list duplicate-free. -/
lemma nodup_append_one {α : Type} (l : List α) (a : α)
    (hnd : l.Nodup) (ha : a ∉ l) : (l ++ [a]).Nodup := by
  induction l with
  | nil => simp
  | cons x xs ih =>
    rcases List.nodup_cons.mp hnd with ⟨hx, hxs⟩
    have ha₂ : a ∉ xs := fun h => ha (List.mem_cons_of_mem _ h)
    have hax : a ≠ x := fun h => ha (h ▸ List.mem_cons_self x xs)
    apply List.nodup_cons.mpr
    refine ⟨?_, ih hxs ha₂⟩
    intro hmem
    rcases List.mem_append.mp hmem with h | h
    · exact hx h
    · exact hax (List.mem_singleton.mp h).symm

/-- One `orderStep` preserves the pass invariant. -/
lemma orderStep_inv (g : TaskGraph)
    (hN : (g.map TaskNode.task_id).Nodup)
    (acc : List String) (u : TaskNode) (hg : u ∈ g)
    (hinv : PassInv g acc) : PassInv g (orderStep acc u) := by
  rcases hinv with ⟨hnd, hsrc, hord⟩
  unfold orderStep
  by_cases hc : acc.contains u.task_id = true
  · rw [if_pos hc]; exact ⟨hnd, hsrc, hord⟩
  · rw [if_neg hc]
    by_cases hall : u.dependencies.all (fun d => acc.contains d) = true
    · rw [if_pos hall]
      have hun : u.task_id ∉ acc :=
        fun hmem => hc ((contains_true_iff acc _).mpr hmem)
      refine ⟨nodup_append_one acc u.task_id hnd hun, ?_, ?_⟩
      · intro x hx
        rcases List.mem_append.mp hx with h | h
        · exact hsrc x h
        · exact ⟨u, hg, ((List.mem_singleton.mp h).symm)⟩
      · intro t htg htmem d hd
        rcases List.mem_append.mp htmem with hta | hta
        · rcases hord t htg hta d hd with ⟨hdin, hidx⟩
          refine ⟨List.mem_append_left _ hdin, ?_⟩
          rw [List.indexOf_append_of_mem hdin, List.indexOf_append_of_mem hta]
          exact hidx
        · have htu : t = u := by
            have hid : t.task_id = u.task_id := List.mem_singleton.mp hta
            exact List.inj_on_of_nodup_map hN htg hg hid
          subst htu
          have hdin : d ∈ acc :=
            (contains_true_iff acc d).mp (List.all_eq_true.mp hall d hd)
          refine ⟨List.mem_append_left _ hdin, ?_⟩
          rw [List.indexOf_append_of_mem hdin,
            List.indexOf_append_of_not_mem hun, List.indexOf_cons_self]
          have := List.indexOf_lt_length.mpr hdin
          omega
    · rw [if_neg hall]; exact ⟨hnd, hsrc, hord⟩

/-- A whole pass preserves the invariant. -/
lemma foldl_orderStep_inv (g : TaskGraph)
    (hN : (g.map TaskNode.task_id).Nodup) :
    ∀ (l : List TaskNode) (acc : List String), (∀ x ∈ l, x ∈ g) →
      PassInv g acc → PassInv g (l.foldl orderStep acc) := by
  intro l
  induction l with
  | nil => intro acc _ hinv; exact hinv
  | cons u rest ih =>
    intro acc hl hinv
    exact ih (orderStep acc u) (fun x hx => hl x (List.mem_cons_of_mem u hx))
      (orderStep_inv g hN acc u (hl u (List.mem_cons_self u rest)) hinv)

/-- `orderPass` preserves the invariant. -/
lemma orderPass_inv (g : TaskGraph)
    (hN : (g.map TaskNode.task_id).Nodup)
    (acc : List String) (hinv : PassInv g acc) :
    PassInv g (orderPass g acc) :=
  foldl_orderStep_inv g hN g acc (fun _ h => h) hinv

/-- With enough fuel (one unit per missing task), the loop completes and
the invariant carries to the result. -/
lemma execOrderFuel_total (g : TaskGraph) (rank : String → Nat)
    (hrank : ∀ t ∈ g, ∀ d ∈ t.dependencies,
      (lookupTask g d).isSome = true → rank d < rank t.task_id)
    (hC : depsClosed g = true)
    (hN : (g.map TaskNode.task_id).Nodup) :
    ∀ (n : Nat) (ord : List String), PassInv g ord → g.length ≤ ord.length + n →
      ∃ res, getExecutionOrderFuel g n ord = some res ∧ PassInv g res
        ∧ g.length ≤ res.length := by
  intro n
  induction n with
  | zero =>
    intro ord hinv hle
    refine ⟨ord, ?_, hinv, by omega⟩
    unfold getExecutionOrderFuel
    rw [if_pos (by omega)]
  | succ n ih =>
    intro ord hinv hle
    by_cases hcomp : g.length ≤ ord.length
    · refine ⟨ord, ?_, hinv, hcomp⟩
      unfold getExecutionOrderFuel
      rw [if_pos hcomp]
    · have hlt : ord.length < g.length := by omega
      rcases hinv with ⟨hnd, hsrc, hord⟩
      have hprog := orderPass_progress g rank hrank hC hN ord hsrc hnd hlt
      have hinv₂ := orderPass_inv g hN ord ⟨hnd, hsrc, hord⟩
      rcases ih (orderPass g ord) hinv₂ (by omega) with ⟨res, hres, hinvr, hlenr⟩
      refine ⟨res, ?_, hinvr, hlenr⟩
      unfold getExecutionOrderFuel
      rw [if_neg hcomp]
      exact hres

/--
**C6 as amended.** For every task graph without a dependency cycle *and
in which every dependency id refers to a task present in the graph* (ids
unique), `get_execution_order` terminates and returns an order containing
every task, in which each task appears only after all of its
dependencies.
-/
theorem C6_execution_order_amended (g : TaskGraph)
    (hA : NoDepCycle g) (hC : depsClosed g = true)
    (hN : (g.map TaskNode.task_id).Nodup) :
    ∃ ord, getExecutionOrder g = some ord
      ∧ (∀ t ∈ g, t.task_id ∈ ord)
      ∧ (∀ t ∈ g, ∀ d ∈ t.dependencies,
          d ∈ ord ∧ ord.indexOf d < ord.indexOf t.task_id) := by
  rcases hA with ⟨rank, hrank⟩
  have hinv₀ : PassInv g [] := by
    refine ⟨List.nodup_nil, ?_, ?_⟩
    · intro x hx; cases hx
    · intro t ht hmem; cases hmem
  rcases execOrderFuel_total g rank hrank hC hN g.length [] hinv₀ (by simp) with
    ⟨res, hres, ⟨hnd, hsrc, hord⟩, hlen⟩
  have hcomplete : ∀ t ∈ g, t.task_id ∈ res := by
    have hsubset : res ⊆ g.map TaskNode.task_id := by
      intro x hx
      rcases hsrc x hx with ⟨t, htg, rfl⟩
      exact List.mem_map_of_mem _ htg
    have hperm := (hnd.subperm hsubset).perm_of_length_le
      (by rw [List.length_map]; exact hlen)
    intro t htg
    exact hperm.mem_iff.mpr (List.mem_map_of_mem _ htg)
  refine ⟨res, hres, hcomplete, ?_⟩
  intro t htg d hd
  exact hord t htg (hcomplete t htg) d hd

/-- Witness for the amended C6: the two-task chain `a <- b` is ordered
with `a` before `b`. -/
theorem C6_witness :
    ∃ ord, getExecutionOrder
        [⟨"a", "first", "setup", [], TaskStatus.pending⟩,
         ⟨"b", "second", "development", ["a"], TaskStatus.pending⟩] = some ord
      ∧ (∀ t ∈ ([⟨"a", "first", "setup", [], TaskStatus.pending⟩,
          ⟨"b", "second", "development", ["a"], TaskStatus.pending⟩] : TaskGraph),
          t.task_id ∈ ord)
      ∧ (∀ t ∈ ([⟨"a", "first", "setup", [], TaskStatus.pending⟩,
          ⟨"b", "second", "development", ["a"], TaskStatus.pending⟩] : TaskGraph),
          ∀ d ∈ t.dependencies,
            d ∈ ord ∧ ord.indexOf d < ord.indexOf t.task_id) :=
  C6_execution_order_amended
    [⟨"a", "first", "setup", [], TaskStatus.pending⟩,
     ⟨"b", "second", "development", ["a"], TaskStatus.pending⟩]
    ⟨fun s => if s = "a" then 0 else 1, by decide⟩ (by decide) (by decide)

/--
**C6 counterexample.** A one-task graph whose single dependency id does
not exist in the graph has no dependency cycle, yet `get_execution_order`
never terminates: the placement condition `dep in completed` (unlike the
readiness check of `get_ready_tasks`) does not skip absent ids, so no
pass ever places the task and the `while` loop spins forever (`none` in
the fuel embedding; `getExecutionOrder_none_diverges` shows no fuel
bound helps).
-/
theorem C6_counterexample :
    NoDepCycle [⟨"a", "lone task", "setup", ["ghost"], TaskStatus.pending⟩]
    ∧ getExecutionOrder
        [⟨"a", "lone task", "setup", ["ghost"], TaskStatus.pending⟩] = none :=
  ⟨⟨fun _ => 0, by decide⟩, by decide⟩

/-- Honesty of the fuel embedding: `getExecutionOrder g = none` means no
fuel bound at all reaches completion — the source's unbounded `while`
loop runs forever. -/
lemma execOrderFuel_none_forever (g : TaskGraph) :
    ∀ (n : Nat) (ord : List String), getExecutionOrderFuel g n ord = none →
      g.length ≤ ord.length + n → ∀ m, getExecutionOrderFuel g m ord = none := by
  intro n
  induction n with
  | zero =>
    intro ord hnone hle m
    exfalso
    unfold getExecutionOrderFuel at hnone
    rw [if_pos (by omega)] at hnone
    cases hnone
  | succ n ih =>
    intro ord hnone hle m
    have hcomp : ¬ g.length ≤ ord.length := by
      intro hcpl
      unfold getExecutionOrderFuel at hnone
      rw [if_pos hcpl] at hnone
      cases hnone
    have hnone₂ : getExecutionOrderFuel g n (orderPass g ord) = none := by
      unfold getExecutionOrderFuel at hnone
      rwa [if_neg hcomp] at hnone
    by_cases hstag : orderPass g ord = ord
    · exact getExecutionOrderFuel_stagnant g ord hstag (by omega) m
    · have hgrow : ord.length < (orderPass g ord).length := by
        have hpre := orderPass_extends g ord
        rcases Nat.lt_or_ge ord.length (orderPass g ord).length with h | h
        · exact h
        · exact absurd (hpre.eq_of_length_le h).symm hstag
      have hall := ih (orderPass g ord) hnone₂ (by omega)
      cases m with
      | zero =>
        unfold getExecutionOrderFuel
        rw [if_neg hcomp]
      | succ m =>
        unfold getExecutionOrderFuel
        rw [if_neg hcomp]
        exact hall m

/-- Divergence of the source loop, stated at the top level. -/
lemma getExecutionOrder_none_diverges (g : TaskGraph)
    (h : getExecutionOrder g = none) :
    ∀ m, getExecutionOrderFuel g m [] = none := by
  intro m
  exact execOrderFuel_none_forever g g.length [] h (by simp) m

/-- A prefix match survives extending the haystack on the right. -/
lemma isStartOf_append (n : List Char) :
    ∀ (h e : List Char), isStartOf n h = true → isStartOf n (h ++ e) = true := by
  induction n with
  | nil => intro h e _; rfl
  | cons a as ih =>
    intro h e hs
    cases h with
    | nil => simp [isStartOf] at hs
    | cons b bs =>
      simp only [isStartOf, Bool.and_eq_true] at hs ⊢
      exact ⟨hs.1, ih bs e hs.2⟩

/-- The empty needle occurs in every haystack. -/
lemma listContains_nil (s : List Char) : listContains [] s = true := by
  cases s <;> simp [listContains, isStartOf]

/-- Substring occurrence survives extending the haystack on the right —
this is what makes `RiskScorer.assess` monotone under appending text. -/
lemma listContains_append_right (n : List Char) :
    ∀ (h e : List Char), listContains n h = true → listContains n (h ++ e) = true := by
  intro h
  induction h with
  | nil =>
    intro e hc
    cases n with
    | nil => exact listContains_nil e
    | cons a as => simp [listContains, isStartOf] at hc
  | cons c rest ih =>
    intro e hc
    simp only [listContains, Bool.or_eq_true] at hc
    rcases hc with hc | hc
    · have := isStartOf_append n (c :: rest) e hc
      simp only [List.cons_append, listContains, Bool.or_eq_true]
      left
      simpa using this
    · simp only [List.cons_append, listContains, Bool.or_eq_true]
      right
      exact ih e hc

/-- Lowercasing distributes over append. -/
lemma lowerChars_append (a b : List Char) :
    lowerChars (a ++ b) = lowerChars a ++ lowerChars b := by
  simp [lowerChars]

/-- The score component of one pattern loop: the accumulator plus the
weight times the number of matching patterns. -/
lemma patternLoop_fst (weight : Nat) (label : String) (code_lower : List Char) :
    ∀ (patterns : List String) (acc : Nat × List String),
      (patternLoop weight label patterns code_lower acc).1
        = acc.1 + weight * patterns.countP
            (fun p => listContains (lowerChars p.data) code_lower) := by
  intro patterns
  induction patterns with
  | nil => intro acc; simp [patternLoop]
  | cons p ps ih =>
    intro acc
    by_cases hp : listContains (lowerChars p.data) code_lower = true
    · simp only [patternLoop, List.foldl_cons] at ih ⊢
      rw [if_pos hp, ih, List.countP_cons_of_pos _ _ (by simpa using hp)]
      ring
    · simp only [patternLoop, List.foldl_cons] at ih ⊢
      rw [if_neg hp, ih, List.countP_cons_of_neg _ _ (by simpa using hp)]

/-- Closed form of the score of `assess`. -/
lemma assess_score_eq (code : List Char) (ctx : RiskContext) :
    (assess code ctx).score =
      min (40 * CRITICAL_PATTERNS.countP
            (fun p => listContains (lowerChars p.data) (lowerChars code))
        + 15 * HIGH_RISK_PATTERNS.countP
            (fun p => listContains (lowerChars p.data) (lowerChars code))
        + (if ctx.capabilities.contains "network" then 20 else 0)
        + (if ctx.capabilities.contains "filesystem" then 10 else 0)) 100 := by
  by_cases hn : ctx.capabilities.contains "network" = true <;>
    by_cases hf : ctx.capabilities.contains "filesystem" = true <;>
      simp only [assess, hn, hf, if_true, if_false, Bool.false_eq_true] <;>
      rw [patternLoop_fst, patternLoop_fst] <;>
      omega

/--
**C7.** `RiskScorer.assess` is monotone in risky content: appending any
additional text that contains a critical or high-risk substring never
yields a strictly smaller score (indeed appending *any* text never
decreases the score — pattern hits are preserved when the haystack
grows, the context bumps are unchanged, and `min · 100` is monotone).
-/
theorem C7_assess_monotone (code extra : List Char) (ctx : RiskContext)
    (_hrisky : ∃ p ∈ CRITICAL_PATTERNS ++ HIGH_RISK_PATTERNS,
        listContains (lowerChars p.data) (lowerChars extra) = true) :
    (assess code ctx).score ≤ (assess (code ++ extra) ctx).score := by
  rw [assess_score_eq, assess_score_eq]
  have hmono : ∀ (ps : List String),
      ps.countP (fun p => listContains (lowerChars p.data) (lowerChars code))
        ≤ ps.countP (fun p => listContains (lowerChars p.data) (lowerChars (code ++ extra))) := by
    intro ps
    apply List.countP_mono_left
    intro p _ hp
    rw [lowerChars_append]
    exact listContains_append_right _ _ _ hp
  have h1 := hmono CRITICAL_PATTERNS
  have h2 := hmono HIGH_RISK_PATTERNS
  omega

/-- Witness for C7: appending `" rm -rf /"` (which contains the critical
substring `rm -rf`) to `print(1)` does not decrease the score. -/
theorem C7_witness :
    (∃ p ∈ CRITICAL_PATTERNS ++ HIGH_RISK_PATTERNS,
        listContains (lowerChars p.data) (lowerChars (" rm -rf /".data)) = true)
    ∧ (assess ("print(1)".data) ⟨[]⟩).score
        ≤ (assess ("print(1)".data ++ " rm -rf /".data) ⟨[]⟩).score :=
  ⟨by decide, C7_assess_monotone ("print(1)".data) (" rm -rf /".data) ⟨[]⟩ (by decide)⟩

/--
**C8 counterexample.** On `os.system('rm -rf /')`, `check_code` returns
`(False, ...)` whose violation list is exactly
`["Denied pattern: rm\s+-rf"]`: there is a violation for the `rm -rf`
pattern, but *no* violation referencing the `os` module — the string
`"os"` does not even occur in any violation entry — because `check_code`
consults only the regex pattern registry, never the module denylist. -/
theorem C8_counterexample :
    (check_code cexDenyCode).1 = false
    ∧ (check_code cexDenyCode).2 = ["Denied pattern: rm\\s+-rf"]
    ∧ (∀ v ∈ (check_code cexDenyCode).2, listContains ("os".data) v.data = false) := by
  decide

/--
**C8 as amended.** `check_code("os.system('rm -rf /')")` returns
`(False, violations)` with a violation referencing the `rm -rf` pattern;
the `os` module is flagged by the separate `is_module_denied` check, not
by `check_code`. -/
theorem C8_denylist_rm_rf_veto :
    (check_code cexDenyCode).1 = false
    ∧ "Denied pattern: rm\\s+-rf" ∈ (check_code cexDenyCode).2
    ∧ isModuleDenied "os" = true := by
  decide

/-- The category loop in closed form: the first components of the keyword
table entries whose keyword set hits the operation text, in table order. -/
lemma matchedCategories_eq (ol : List Char) :
    matchedCategories ol
      = (CATEGORY_KEYWORDS.filter
          (fun ck => ck.2.any (fun k => listContains k.data ol))).map Prod.fst := by
  unfold matchedCategories
  have aux : ∀ (l : List (RiskCategory × List String)) (acc : List RiskCategory),
      l.foldl (fun cs ck =>
        if ck.2.any (fun k => listContains k.data ol) then cs ++ [ck.1] else cs) acc
      = acc ++ (l.filter
          (fun ck => ck.2.any (fun k => listContains k.data ol))).map Prod.fst := by
    intro l
    induction l with
    | nil => intro acc; simp
    | cons x xs ih =>
      intro acc
      by_cases hx : x.2.any (fun k => listContains k.data ol) = true
      · rw [List.foldl_cons]
        simp only [if_pos hx, ih, List.filter_cons, hx, if_true, List.map_cons]
        simp
      · rw [List.foldl_cons]
        simp only [if_neg hx, ih, List.filter_cons]
  simpa using aux CATEGORY_KEYWORDS []

/-- If no keyword of any category occurs, the category loop is empty. -/
lemma matchedCategories_nil (ol : List Char)
    (h : ∀ ck ∈ CATEGORY_KEYWORDS, ∀ k ∈ ck.2, listContains k.data ol = false) :
    matchedCategories ol = [] := by
  rw [matchedCategories_eq]
  have hfil : CATEGORY_KEYWORDS.filter
      (fun ck => ck.2.any (fun k => listContains k.data ol)) = [] := by
    rw [List.filter_eq_nil_iff]
    intro ck hck hany
    rcases List.any_eq_true.mp hany with ⟨k, hk, hkc⟩
    rw [h ck hck k hk] at hkc
    exact Bool.false_ne_true hkc
  rw [hfil]
  rfl

/-- `classify` leaves the matched-category list untouched in its result. -/
lemma classify_categories_eq (op : List Char) :
    (classify op).categories = matchedCategories (lowerChars op) := by
  unfold classify
  by_cases h : (matchedCategories (lowerChars op)).isEmpty = true
  · simp only [h, if_true]
    exact (List.isEmpty_iff.mp h).symm
  · simp only [h, Bool.false_eq_true, if_false]

/-- The level field of `classify`, as a three-way decision on the matched
categories. -/
lemma classify_level_eq (op : List Char) :
    (classify op).level =
      (if matchedCategories (lowerChars op) = [] then "low"
       else if (matchedCategories (lowerChars op)).any
           (fun c => c == RiskCategory.system || c == RiskCategory.code_execution)
         then "high"
       else if 2 < (matchedCategories (lowerChars op)).length then "medium"
       else "low") := by
  unfold classify
  by_cases h : (matchedCategories (lowerChars op)).isEmpty = true
  · have h0 := List.isEmpty_iff.mp h
    simp only [h, if_true, h0]
    rfl
  · have h0 : matchedCategories (lowerChars op) ≠ [] := by
      simpa [List.isEmpty_iff] using h
    simp only [h, Bool.false_eq_true, if_false, if_neg h0]

/-- With no keyword hit at all, `classify` returns the fixed low-risk
record with confidence 0.8. -/
lemma classify_no_match (op : List Char)
    (hall : ∀ ck ∈ CATEGORY_KEYWORDS, ∀ k ∈ ck.2,
        listContains k.data (lowerChars op) = false) :
    classify op = ⟨"low", [], 8/10, "No high-risk patterns detected"⟩ := by
  have h0 := matchedCategories_nil (lowerChars op) hall
  simp [classify, h0]

/--
**C9.** `RiskClassifier.classify` assigns level `"high"` iff some matched
category is `system` or `code_execution`; otherwise `"medium"` iff more
than two distinct categories matched (the category list is duplicate-free
since each category is appended at most once); otherwise `"low"`; and
when no keyword of any category occurs case-insensitively in the
operation, the result is exactly level `"low"` with confidence 0.8 and an
empty category list.
-/
theorem C9_classifier_level_rule (op : List Char) :
    ((classify op).level = "high" ↔
      ∃ c ∈ (classify op).categories,
        c = RiskCategory.system ∨ c = RiskCategory.code_execution)
    ∧ ((classify op).level = "medium" ↔
      (¬∃ c ∈ (classify op).categories,
        c = RiskCategory.system ∨ c = RiskCategory.code_execution)
      ∧ 2 < (classify op).categories.length)
    ∧ ((classify op).level = "low" ↔
      (¬∃ c ∈ (classify op).categories,
        c = RiskCategory.system ∨ c = RiskCategory.code_execution)
      ∧ (classify op).categories.length ≤ 2)
    ∧ (classify op).categories.Nodup
    ∧ ((∀ ck ∈ CATEGORY_KEYWORDS, ∀ k ∈ ck.2,
          listContains k.data (lowerChars op) = false) →
      classify op = ⟨"low", [], 8/10, "No high-risk patterns detected"⟩) := by
  have hnodup : (matchedCategories (lowerChars op)).Nodup := by
    rw [matchedCategories_eq]
    apply List.Nodup.map_on
    · intro x hx y hy hxy
      have hxm := List.mem_of_mem_filter hx
      have hym := List.mem_of_mem_filter hy
      fin_cases hxm <;> fin_cases hym <;> first | rfl | (exfalso; simp_all)
    · exact List.Nodup.filter _ (by decide)
  rw [classify_categories_eq, classify_level_eq]
  set mc := matchedCategories (lowerChars op) with hmc
  have hprop : (mc.any (fun c => c == RiskCategory.system
      || c == RiskCategory.code_execution) = true) ↔
      ∃ c ∈ mc, c = RiskCategory.system ∨ c = RiskCategory.code_execution := by
    simp [List.any_eq_true]
  refine ⟨?_, ?_, ?_, hnodup, fun hall => classify_no_match op hall⟩
  · by_cases h0 : mc = []
    · rw [if_pos h0]
      constructor
      · intro h; exact absurd h (by decide)
      · rintro ⟨c, hcmem, -⟩; rw [h0] at hcmem; cases hcmem
    · rw [if_neg h0]
      by_cases hhi : mc.any (fun c => c == RiskCategory.system
          || c == RiskCategory.code_execution) = true
      · rw [if_pos hhi]
        exact ⟨fun _ => hprop.mp hhi, fun _ => rfl⟩
      · rw [if_neg hhi]
        constructor
        · intro h
          by_cases hlen : 2 < mc.length
          · rw [if_pos hlen] at h; exact absurd h (by decide)
          · rw [if_neg hlen] at h; exact absurd h (by decide)
        · intro hc; exact absurd (hprop.mpr hc) hhi
  · by_cases h0 : mc = []
    · rw [if_pos h0]
      constructor
      · intro h; exact absurd h (by decide)
      · rintro ⟨-, hgt⟩; rw [h0] at hgt; simp at hgt
    · rw [if_neg h0]
      by_cases hhi : mc.any (fun c => c == RiskCategory.system
          || c == RiskCategory.code_execution) = true
      · rw [if_pos hhi]
        constructor
        · intro h; exact absurd h (by decide)
        · rintro ⟨hno, -⟩; exact absurd (hprop.mp hhi) hno
      · rw [if_neg hhi]
        by_cases hlen : 2 < mc.length
        · rw [if_pos hlen]
          exact ⟨fun _ => ⟨fun hc => hhi (hprop.mpr hc), hlen⟩, fun _ => rfl⟩
        · rw [if_neg hlen]
          constructor
          · intro h; exact absurd h (by decide)
          · rintro ⟨-, hgt⟩; exact absurd hgt hlen
  · by_cases h0 : mc = []
    · rw [if_pos h0]
      constructor
      · intro _
        refine ⟨?_, ?_⟩
        · rintro ⟨c, hcmem, -⟩; rw [h0] at hcmem; cases hcmem
        · rw [h0]; simp
      · intro _; rfl
    · rw [if_neg h0]
      by_cases hhi : mc.any (fun c => c == RiskCategory.system
          || c == RiskCategory.code_execution) = true
      · rw [if_pos hhi]
        constructor
        · intro h; exact absurd h (by decide)
        · rintro ⟨hno, -⟩; exact absurd (hprop.mp hhi) hno
      · rw [if_neg hhi]
        by_cases hlen : 2 < mc.length
        · rw [if_pos hlen]
          constructor
          · intro h; exact absurd h (by decide)
          · rintro ⟨-, hle⟩; exact absurd hlen (by omega)
        · rw [if_neg hlen]
          exact ⟨fun _ => ⟨fun hc => hhi (hprop.mpr hc), by omega⟩, fun _ => rfl⟩

/-- Witness for C9: `"zzz"` hits no keyword, so classification is `low`
with confidence 0.8 and no categories. -/
theorem C9_witness :
    classify ("zzz".data) = ⟨"low", [], 8/10, "No high-risk patterns detected"⟩ :=
  (C9_classifier_level_rule ("zzz".data)).2.2.2.2 (by decide)

/-- Witness for C5: on a fresh engine with auto-approval on, a low-risk
request is auto-approved, lands in history, is immediately `is_approved`,
and the pending table stays empty. -/
theorem C5_witness :
    (requestApproval ⟨true, [], []⟩ "id-1" "write_file" "write a file" "low" 0).1.status
      = ApprovalStatus.auto_approved
    ∧ isApproved (requestApproval ⟨true, [], []⟩ "id-1" "write_file" "write a file" "low" 0).2 "id-1"
      = true
    ∧ (requestApproval ⟨true, [], []⟩ "id-1" "write_file" "write a file" "low" 0).2.pending_requests
      = [] := by
  have h := (C5_auto_approval_low_risk ⟨true, [], []⟩ "id-1" "write_file"
    "write a file" "low" 0 (by intro r hr; simp at hr)).1 ⟨rfl, rfl⟩
  exact ⟨h.1, h.2.2.1, h.2.2.2⟩

end DeepForge
